import Mathlib

/-!
# Verification of the OPW kinematics core (`src/kinematics_impl.rs`)

Shallow embedding over the real numbers `ℝ` of the forward / inverse
kinematics solver for 6-axis OPW-parameterized industrial robots, together
with proofs and refutations of the specified properties.

Modelling conventions:
* `f64` values are modelled by `ℝ` (exact real arithmetic, the ideal
  semantics of the floating-point code).  Where the source can produce
  non-finite values — `sqrt` of a negative argument, `acos` outside
  `[-1, 1]`, division by zero — scalars are carried as `Option ℝ`, with
  `none` standing for a non-finite `f64`, so that the `is_finite` filter
  of the inverse solver discards exactly the candidates the program
  discards.
* `atan2 y x` is modelled by `Complex.arg ⟨x, y⟩`, which agrees with the
  Rust `f64::atan2` on its whole domain (range `(-π, π]`, `atan2 0 0 = 0`,
  `atan2 0 x = π` for `x < 0`, `atan2 y 0 = ±π/2` for `±y > 0`).
* `nalgebra` rotations (`Rotation3` / `UnitQuaternion`) are modelled by
  explicit 3×3 real matrices; the quaternion↔matrix conversions of the
  source are exact in ideal arithmetic, and `UnitQuaternion::angle_to` is
  modelled by the equivalent rotation-matrix geodesic angle
  `arccos ((trace (R₁ᵀ R₂) - 1) / 2)`.
* Rust `while` loops over reals are modelled by well-founded recursion with
  the same loop bodies and guards.
-/

open Real

open scoped Classical

noncomputable section

/-! ## Scalar helpers -/

/-- `atan2 y x` in the Rust/`libm` convention, modelled as the complex
argument of `x + y·i`: range `(-π, π]`, `atan2 0 0 = 0`. -/
def atan2 (y x : ℝ) : ℝ := Complex.arg ⟨x, y⟩

/-- Rust `f64::rem_euclid` for a positive modulus: `x - m * ⌊x / m⌋`. -/
def remEuclid (x m : ℝ) : ℝ := x - m * (⌊x / m⌋ : ℤ)

/-- Rust `%` (truncated remainder) on `f64`: `x - m * trunc (x / m)`.
For a non-negative dividend and positive modulus it coincides with
`remEuclid`; the source only applies it to absolute values. -/
def truncRem (x m : ℝ) : ℝ :=
  x - m * (if 0 ≤ x / m then (⌊x / m⌋ : ℤ) else -(⌊-(x / m)⌋ : ℤ) : ℝ)

/-- Rust `f64::signum` (`1.0` for non-negative — reals have no `-0.0` —
and `-1.0` for negative values). -/
def rustSignum (x : ℝ) : ℝ := if x < 0 then -1 else 1

/-! ## The angle-normalization loops

The source normalizes an angle with two `while` loops:

```rust
while angle > PI  { angle -= 2.0 * PI; }
while angle < -PI { angle += 2.0 * PI; }
```

These appear verbatim in `inverse` (solution normalization, lines 289–294)
and in `inverse_continuing` (wrapping the conserved-quantity delta, lines
361–366).  They are modelled by the two well-founded recursions below. -/

/-- The loop `while angle > PI { angle -= 2.0 * PI }`. -/
def wrapHigh (angle : ℝ) : ℝ :=
  if h : Real.pi < angle then wrapHigh (angle - 2 * Real.pi) else angle
termination_by Nat.ceil ((angle - Real.pi) / (2 * Real.pi))
decreasing_by
  have hpi := Real.pi_pos
  have h2 : (0:ℝ) < 2 * Real.pi := by linarith
  have hu : 0 < (angle - Real.pi) / (2 * Real.pi) := div_pos (by linarith) h2
  have hceil : 0 < Nat.ceil ((angle - Real.pi) / (2 * Real.pi)) := by
    exact Nat.ceil_pos.mpr hu
  have harg : (angle - 2 * Real.pi - Real.pi) / (2 * Real.pi)
      = (angle - Real.pi) / (2 * Real.pi) - 1 := by
    field_simp
    ring
  rw [harg]
  have hle : Nat.ceil ((angle - Real.pi) / (2 * Real.pi) - 1)
      ≤ Nat.ceil ((angle - Real.pi) / (2 * Real.pi)) - 1 := by
    apply Nat.ceil_le.mpr
    have := Nat.le_ceil ((angle - Real.pi) / (2 * Real.pi))
    rw [Nat.cast_sub hceil, Nat.cast_one]
    linarith
  omega

/-- The loop `while angle < -PI { angle += 2.0 * PI }`. -/
def wrapLow (angle : ℝ) : ℝ :=
  if h : angle < -Real.pi then wrapLow (angle + 2 * Real.pi) else angle
termination_by Nat.ceil ((-Real.pi - angle) / (2 * Real.pi))
decreasing_by
  have hpi := Real.pi_pos
  have h2 : (0:ℝ) < 2 * Real.pi := by linarith
  have hu : 0 < (-Real.pi - angle) / (2 * Real.pi) := div_pos (by linarith) h2
  have hceil : 0 < Nat.ceil ((-Real.pi - angle) / (2 * Real.pi)) := by
    exact Nat.ceil_pos.mpr hu
  have harg : (-Real.pi - (angle + 2 * Real.pi)) / (2 * Real.pi)
      = (-Real.pi - angle) / (2 * Real.pi) - 1 := by
    field_simp
    ring
  rw [harg]
  have hle : Nat.ceil ((-Real.pi - angle) / (2 * Real.pi) - 1)
      ≤ Nat.ceil ((-Real.pi - angle) / (2 * Real.pi)) - 1 := by
    apply Nat.ceil_le.mpr
    have := Nat.le_ceil ((-Real.pi - angle) / (2 * Real.pi))
    rw [Nat.cast_sub hceil, Nat.cast_one]
    linarith
  omega

/-- Both normalization loops in source order: first reduce while `> π`,
then raise while `< -π`. -/
def wrapAngle (angle : ℝ) : ℝ := wrapLow (wrapHigh angle)

/-! ## Data model: vectors, matrices, joints, poses, parameters -/

/-- A 3-vector of reals (`nalgebra::Vector3<f64>`). -/
@[ext] structure Vec3 where
  x : ℝ
  y : ℝ
  z : ℝ

/-- A 3×3 real matrix (`nalgebra::Matrix3<f64>` / `Rotation3<f64>`),
entry `mIJ` = row `I`, column `J`. -/
@[ext] structure Mat3 where
  m00 : ℝ
  m01 : ℝ
  m02 : ℝ
  m10 : ℝ
  m11 : ℝ
  m12 : ℝ
  m20 : ℝ
  m21 : ℝ
  m22 : ℝ

def vSub (a b : Vec3) : Vec3 := ⟨a.x - b.x, a.y - b.y, a.z - b.z⟩

def vDot (a b : Vec3) : ℝ := a.x * b.x + a.y * b.y + a.z * b.z

def vCross (a b : Vec3) : Vec3 :=
  ⟨a.y * b.z - a.z * b.y, a.z * b.x - a.x * b.z, a.x * b.y - a.y * b.x⟩

/-- `nalgebra` Euclidean norm. -/
def vNorm (a : Vec3) : ℝ := Real.sqrt (a.x * a.x + a.y * a.y + a.z * a.z)

def matMul (a b : Mat3) : Mat3 :=
  ⟨a.m00 * b.m00 + a.m01 * b.m10 + a.m02 * b.m20,
   a.m00 * b.m01 + a.m01 * b.m11 + a.m02 * b.m21,
   a.m00 * b.m02 + a.m01 * b.m12 + a.m02 * b.m22,
   a.m10 * b.m00 + a.m11 * b.m10 + a.m12 * b.m20,
   a.m10 * b.m01 + a.m11 * b.m11 + a.m12 * b.m21,
   a.m10 * b.m02 + a.m11 * b.m12 + a.m12 * b.m22,
   a.m20 * b.m00 + a.m21 * b.m10 + a.m22 * b.m20,
   a.m20 * b.m01 + a.m21 * b.m11 + a.m22 * b.m21,
   a.m20 * b.m02 + a.m21 * b.m12 + a.m22 * b.m22⟩

def matTranspose (a : Mat3) : Mat3 :=
  ⟨a.m00, a.m10, a.m20, a.m01, a.m11, a.m21, a.m02, a.m12, a.m22⟩

def matId : Mat3 := ⟨1, 0, 0, 0, 1, 0, 0, 0, 1⟩

def matTrace (a : Mat3) : ℝ := a.m00 + a.m11 + a.m22

def matDet (a : Mat3) : ℝ :=
  a.m00 * (a.m11 * a.m22 - a.m12 * a.m21)
    - a.m01 * (a.m10 * a.m22 - a.m12 * a.m20)
    + a.m02 * (a.m10 * a.m21 - a.m11 * a.m20)

/-- Apply a matrix to a vector (`Matrix3::transform_vector` /
rotation action). -/
def matApply (a : Mat3) (v : Vec3) : Vec3 :=
  ⟨a.m00 * v.x + a.m01 * v.y + a.m02 * v.z,
   a.m10 * v.x + a.m11 * v.y + a.m12 * v.z,
   a.m20 * v.x + a.m21 * v.y + a.m22 * v.z⟩

/-- An ordered 6-tuple of joint angles (`Joints = [f64; 6]`); field `jI`
is array index `I`, so joint `J5` of the source is field `j4`. -/
@[ext] structure Joints where
  j0 : ℝ
  j1 : ℝ
  j2 : ℝ
  j3 : ℝ
  j4 : ℝ
  j5 : ℝ

/-- A rigid transform (`Pose = Isometry3<f64>`).  The unit-quaternion
rotation of the source is modelled by its (equivalent) rotation matrix. -/
@[ext] structure Pose where
  translation : Vec3
  rotation : Mat3

/-- The OPW parameter record (`parameters::opw_kinematics::Parameters`):
seven geometry scalars, six per-joint offsets, six sign corrections. -/
structure Parameters where
  a1 : ℝ
  a2 : ℝ
  b : ℝ
  c1 : ℝ
  c2 : ℝ
  c3 : ℝ
  c4 : ℝ
  offsets : Joints
  sign_corrections : Joints

/-! ## Constants (`kinematics_impl.rs` lines 26–31) -/

def MM : ℝ := 0.001

def DISTANCE_TOLERANCE : ℝ := 0.001 * MM

def ANGULAR_TOLERANCE : ℝ := 1e-6

/-- `0.01 * PI / 180.0`. -/
def SINGULARITY_ANGLE_THR : ℝ := 0.01 * Real.pi / 180.0

/-- The `Singularity` enum: currently the single variant `A`
(wrist axes aligned, joint 5 at 0 or ±π). -/
inductive Singularity where
  | A
deriving DecidableEq

/-! ## Pose comparison (`compare_poses`, lines 526–545) -/

/-- Geodesic angle between two rotations,
`ta.rotation.angle_to(&tb.rotation)`:
the rotation angle `arccos ((trace (R₁ᵀ R₂) - 1) / 2)` of the relative
rotation (the quaternion `angle_to` of the source computes the same
quantity). -/
def rotAngleBetween (r1 r2 : Mat3) : ℝ :=
  Real.arccos ((matTrace (matMul (matTranspose r1) r2) - 1) / 2)

/-- `compare_poses(ta, tb, distance_tolerance, angular_tolerance)`:
true iff neither the translation distance nor the angular distance
exceeds its tolerance. -/
def comparePoses (ta tb : Pose) (distance_tolerance angular_tolerance : ℝ) :
    Prop :=
  |vNorm (vSub ta.translation tb.translation)| ≤ distance_tolerance ∧
    |rotAngleBetween ta.rotation tb.rotation| ≤ angular_tolerance

/-! ## Per-joint encode/decode (offset and sign correction)

`forward` decodes `q[i] = joints[i] * sign_corrections[i] - offsets[i]`
(lines 399–404); `inverse` encodes
`joint[i] = (theta[i] + offsets[i]) * sign_corrections[i]` (line 275). -/

def decodeJoint (joint offset sign : ℝ) : ℝ := joint * sign - offset

def encodeJoint (theta offset sign : ℝ) : ℝ := (theta + offset) * sign

/-! ## Forward solver (`OPWKinematics::forward`, lines 396–450) -/

/-- The base→wrist rotation `r_0c` built from `q1,q2,q3` (lines 431–435). -/
def r0cMat (q1 q2 q3 : ℝ) : Mat3 :=
  let s1 := Real.sin q1
  let s2 := Real.sin q2
  let s3 := Real.sin q3
  let c1 := Real.cos q1
  let c2 := Real.cos q2
  let c3 := Real.cos q3
  ⟨c1 * c2 * c3 - c1 * s2 * s3, -s1, c1 * c2 * s3 + c1 * s2 * c3,
   s1 * c2 * c3 - s1 * s2 * s3, c1, s1 * c2 * s3 + s1 * s2 * c3,
   -s2 * c3 - c2 * s3, 0, -s2 * s3 + c2 * c3⟩

/-- The spherical-wrist rotation `r_ce` built from `q4,q5,q6`
(lines 437–441). -/
def rceMat (q4 q5 q6 : ℝ) : Mat3 :=
  let s4 := Real.sin q4
  let s5 := Real.sin q5
  let s6 := Real.sin q6
  let c4 := Real.cos q4
  let c5 := Real.cos q5
  let c6 := Real.cos q6
  ⟨c4 * c5 * c6 - s4 * s6, -c4 * c5 * s6 - s4 * c6, c4 * s5,
   s4 * c5 * c6 + c4 * s6, -s4 * c5 * s6 + c4 * c6, s4 * s5,
   -s5 * c6, s5 * s6, c5⟩

/-- `forward(joints) -> pose`.  Decodes each joint, computes the wrist
center by the two-link planar equations, composes `r_oe = r_0c * r_ce`,
and adds the tool offset `c4 * r_oe * unit_z` (= `c4` times column 2 of
`r_oe`) to the wrist center. -/
def forward (p : Parameters) (joints : Joints) : Pose :=
  let q1 := decodeJoint joints.j0 p.offsets.j0 p.sign_corrections.j0
  let q2 := decodeJoint joints.j1 p.offsets.j1 p.sign_corrections.j1
  let q3 := decodeJoint joints.j2 p.offsets.j2 p.sign_corrections.j2
  let q4 := decodeJoint joints.j3 p.offsets.j3 p.sign_corrections.j3
  let q5 := decodeJoint joints.j4 p.offsets.j4 p.sign_corrections.j4
  let q6 := decodeJoint joints.j5 p.offsets.j5 p.sign_corrections.j5
  let psi3 := atan2 p.a2 p.c3
  let k := Real.sqrt (p.a2 * p.a2 + p.c3 * p.c3)
  let cx1 := p.c2 * Real.sin q2 + k * Real.sin (q2 + q3 + psi3) + p.a1
  let cy1 := p.b
  let cz1 := p.c2 * Real.cos q2 + k * Real.cos (q2 + q3 + psi3)
  let cx0 := cx1 * Real.cos q1 - cy1 * Real.sin q1
  let cy0 := cx1 * Real.sin q1 + cy1 * Real.cos q1
  let cz0 := cz1 + p.c1
  let r_oe := matMul (r0cMat q1 q2 q3) (rceMat q4 q5 q6)
  { translation := ⟨cx0 + p.c4 * r_oe.m02, cy0 + p.c4 * r_oe.m12,
      cz0 + p.c4 * r_oe.m22⟩,
    rotation := r_oe }

/-! ## Singularity classifier (lines 452–469) -/

/-- `is_close_to_multiple_of_pi`: normalize into `[0, 2π)` with
`rem_euclid`, then check closeness to `0` or to `π`. -/
def isCloseToMultipleOfPi (joint_value threshold : ℝ) : Prop :=
  let normalized_angle := remEuclid joint_value (2 * Real.pi)
  normalized_angle < threshold ∨ |Real.pi - normalized_angle| < threshold

/-- `kinematic_singularity(joints)`: variant `A` iff joint 5
(array index 4) is classified by `is_close_to_multiple_of_pi`.
(The parameter record is unused by the source method.) -/
def kinematicSingularity (joints : Joints) : Option Singularity :=
  if isCloseToMultipleOfPi joints.j4 SINGULARITY_ANGLE_THR then
    some Singularity.A
  else none

/-- `are_angles_close` (lines 471–478): absolute difference, reduced with
`%`, then the loop `while diff > PI { diff = (2.0*PI) - diff }` — which
runs at most once since `2π - d < π` whenever `d > π` — compared against
the singularity threshold. -/
def areAnglesClose (angle1 angle2 : ℝ) : Prop :=
  let diff0 := |angle1 - angle2|
  let diff1 := truncRem diff0 (2 * Real.pi)
  let diff2 := if Real.pi < diff1 then 2 * Real.pi - diff1 else diff1
  diff2 < SINGULARITY_ANGLE_THR

/-! ## `normalize_near` (lines 486–505) -/

/-- The inner `adjust` closure of `normalize_near`: shift by `±2π` when
that brings the value closer to `prev`, and identify `-π` with `π`
according to the sign of `prev`. -/
def normalizeNearAdjust (now prev : ℝ) : ℝ :=
  let two_pi := 2 * Real.pi
  let n1 := if |now - prev| > |now - two_pi - prev| then now - two_pi else now
  let n2 := if |n1 - prev| > |n1 + two_pi - prev| then n1 + two_pi else n1
  if |n2| = Real.pi ∧ rustSignum prev ≠ rustSignum n2 then -n2 else n2

/-- `normalize_near`: the adjustment applied twice. -/
def normalizeNear (now must_be_near : ℝ) : ℝ :=
  normalizeNearAdjust (normalizeNearAdjust now must_be_near) must_be_near

/-! ## Distance and sorting (lines 508–523) -/

/-- `calculate_distance`: the sum over the six joints of the absolute
per-joint difference. -/
def calculateDistance (joint1 joint2 : Joints) : ℝ :=
  |joint1.j0 - joint2.j0| + |joint1.j1 - joint2.j1| + |joint1.j2 - joint2.j2|
    + |joint1.j3 - joint2.j3| + |joint1.j4 - joint2.j4|
    + |joint1.j5 - joint2.j5|

open scoped Classical in
/-- `sort_by_closeness`: stable ascending sort by distance to `previous`
(Rust `sort_by` is a stable sort; insertion sort realizes the same
specification). -/
def sortByCloseness (solutions : List Joints) (previous : Joints) :
    List Joints :=
  List.insertionSort
    (fun a b => calculateDistance a previous ≤ calculateDistance b previous)
    solutions

/-! ## Inverse solver (`OPWKinematics::inverse`, lines 49–314)

The candidate computation is `f64` arithmetic that can turn non-finite:
`f64::sqrt` of a negative argument and `f64::acos` of an argument outside
`[-1, 1]` return NaN, division by zero returns `±∞` (or NaN), and a
non-finite value propagates through every later operation until the
`is_finite` check of the validation loop (line 288) discards the
candidate.  Such scalars are modelled by `Option ℝ`: `some x` is the
finite value `x`, `none` a non-finite one.  Lumping `±∞` with NaN into
`none` is exact for this pipeline: its only fallible division feeds
directly into `acos` (which maps `±∞` to NaN), so every `none` that
reaches an `atan2`, `sin` or `cos` stands for a NaN, which those
functions propagate. -/

/-- Addition on possibly-non-finite scalars (non-finite propagates). -/
def fAdd : Option ℝ → Option ℝ → Option ℝ
  | some a, some b => some (a + b)
  | _, _ => none

/-- Subtraction on possibly-non-finite scalars. -/
def fSub : Option ℝ → Option ℝ → Option ℝ
  | some a, some b => some (a - b)
  | _, _ => none

/-- Multiplication on possibly-non-finite scalars. -/
def fMul : Option ℝ → Option ℝ → Option ℝ
  | some a, some b => some (a * b)
  | _, _ => none

/-- Negation on possibly-non-finite scalars. -/
def fNeg : Option ℝ → Option ℝ
  | some a => some (-a)
  | none => none

/-- `f64` division: non-finite (`±∞`, or NaN for `0/0`) when the divisor
is zero. -/
def fDiv : Option ℝ → Option ℝ → Option ℝ
  | some a, some b => if b = 0 then none else some (a / b)
  | _, _ => none

/-- `f64::sqrt`: NaN on negative arguments. -/
def fSqrt : Option ℝ → Option ℝ
  | some a => if a < 0 then none else some (Real.sqrt a)
  | none => none

/-- `f64::acos`: NaN outside `[-1, 1]`. -/
def fAcos : Option ℝ → Option ℝ
  | some a => if |a| ≤ 1 then some (Real.arccos a) else none
  | none => none

/-- `f64::atan2`: finite (and total) on finite arguments, NaN-propagating
otherwise. -/
def fAtan2 : Option ℝ → Option ℝ → Option ℝ
  | some y, some x => some (atan2 y x)
  | _, _ => none

/-- `f64::sin`, NaN-propagating. -/
def fSin : Option ℝ → Option ℝ
  | some a => some (Real.sin a)
  | none => none

/-- `f64::cos`, NaN-propagating. -/
def fCos : Option ℝ → Option ℝ
  | some a => some (Real.cos a)
  | none => none

/-- The guard `value.abs() < threshold` on a possibly-NaN value: every
comparison with NaN is false. -/
def fAbsLt (a : Option ℝ) (threshold : ℝ) : Prop :=
  match a with
  | some v => |v| < threshold
  | none => False

/-- One raw candidate row of the `sols` array: six possibly-non-finite
joint angles. -/
@[ext] structure RawJoints where
  r0 : Option ℝ
  r1 : Option ℝ
  r2 : Option ℝ
  r3 : Option ℝ
  r4 : Option ℝ
  r5 : Option ℝ

/-- The degenerate-wrist (`|theta5| < zero_threshold`) recovery of
`theta6`: build the local orthonormal frame
`yc = (-sin θ1, cos θ1, 0)`, `zc` = target Z axis, `xc = yc × zc`,
express the target X axis `xe` in it, and take `atan2` of its first two
components (repeated verbatim for each of the four branches in the
source).  A NaN `theta1` makes every frame entry, and hence the result,
NaN. -/
def gimbalTheta6 (matrix : Mat3) : Option ℝ → Option ℝ
  | none => none
  | some theta1 =>
    let xe : Vec3 := ⟨matrix.m00, matrix.m10, matrix.m20⟩
    let yc : Vec3 := ⟨-Real.sin theta1, Real.cos theta1, 0⟩
    let zc : Vec3 := ⟨matrix.m02, matrix.m12, matrix.m22⟩
    let xc := vCross yc zc
    some (atan2 (vDot yc xe) (vDot xc xe))

open scoped Classical in
/-- The 8 raw algebraic candidates of `inverse` with per-joint offset and
sign correction already applied (the `sols` array of the source, lines
49–278), in source enumeration order.  Scalars that can become
non-finite are carried as `Option ℝ`. -/
def solutionCandidates (params : Parameters) (pose : Pose) :
    List RawJoints :=
  let matrix := pose.rotation
  let translation_vector := pose.translation
  let scaled_z_axis : Vec3 := ⟨params.c4 * matrix.m02, params.c4 * matrix.m12,
    params.c4 * matrix.m22⟩
  let c := vSub translation_vector scaled_z_axis
  let nx1 := fSub (fSqrt (some ((c.x * c.x + c.y * c.y)
    - params.b * params.b))) (some params.a1)
  let tmp1 := atan2 c.y c.x
  let tmp2 := fAtan2 (some params.b) (fAdd nx1 (some params.a1))
  let theta1_i := fSub (some tmp1) tmp2
  let theta1_ii := fSub (fAdd (some tmp1) tmp2) (some Real.pi)
  let tmp3 := c.z - params.c1
  let s1_2 := fAdd (fMul nx1 nx1) (some (tmp3 * tmp3))
  let tmp4 := fAdd nx1 (some (2 * params.a1))
  let s2_2 := fAdd (fMul tmp4 tmp4) (some (tmp3 * tmp3))
  let kappa_2 := params.a2 * params.a2 + params.c3 * params.c3
  let c2_2 := params.c2 * params.c2
  let tmp5 := fSub (fAdd s1_2 (some c2_2)) (some kappa_2)
  let s1 := fSqrt s1_2
  let s2 := fSqrt s2_2
  let tmp13 := fAcos (fDiv tmp5 (fMul (fMul (some 2) s1) (some params.c2)))
  let tmp14 := fAtan2 nx1 (some (c.z - params.c1))
  let theta2_i := fAdd (fNeg tmp13) tmp14
  let theta2_ii := fAdd tmp13 tmp14
  let tmp6 := fSub (fAdd s2_2 (some c2_2)) (some kappa_2)
  let tmp15 := fAcos (fDiv tmp6 (fMul (fMul (some 2) s2) (some params.c2)))
  let tmp16 := fAtan2 (fAdd nx1 (some (2 * params.a1)))
    (some (c.z - params.c1))
  let theta2_iii := fSub (fNeg tmp15) tmp16
  let theta2_iv := fSub tmp15 tmp16
  let tmp7 := fSub (fSub s1_2 (some c2_2)) (some kappa_2)
  let tmp8 := fSub (fSub s2_2 (some c2_2)) (some kappa_2)
  let tmp9 := fMul (some (2 * params.c2)) (fSqrt (some kappa_2))
  let tmp10 := atan2 params.a2 params.c3
  let tmp11 := fAcos (fDiv tmp7 tmp9)
  let theta3_i := fSub tmp11 (some tmp10)
  let theta3_ii := fSub (fNeg tmp11) (some tmp10)
  let tmp12 := fAcos (fDiv tmp8 tmp9)
  let theta3_iii := fSub tmp12 (some tmp10)
  let theta3_iv := fSub (fNeg tmp12) (some tmp10)
  let sin1 : Fin 4 → Option ℝ := fun i =>
    match i with
    | 0 => fSin theta1_i
    | 1 => fSin theta1_i
    | 2 => fSin theta1_ii
    | 3 => fSin theta1_ii
  let cos1 : Fin 4 → Option ℝ := fun i =>
    match i with
    | 0 => fCos theta1_i
    | 1 => fCos theta1_i
    | 2 => fCos theta1_ii
    | 3 => fCos theta1_ii
  let s23 : Fin 4 → Option ℝ := fun i =>
    match i with
    | 0 => fSin (fAdd theta2_i theta3_i)
    | 1 => fSin (fAdd theta2_ii theta3_ii)
    | 2 => fSin (fAdd theta2_iii theta3_iii)
    | 3 => fSin (fAdd theta2_iv theta3_iv)
  let c23 : Fin 4 → Option ℝ := fun i =>
    match i with
    | 0 => fCos (fAdd theta2_i theta3_i)
    | 1 => fCos (fAdd theta2_ii theta3_ii)
    | 2 => fCos (fAdd theta2_iii theta3_iii)
    | 3 => fCos (fAdd theta2_iv theta3_iv)
  let m : Fin 4 → Option ℝ := fun i =>
    fAdd (fAdd (fMul (fMul (some matrix.m02) (s23 i)) (cos1 i))
        (fMul (fMul (some matrix.m12) (s23 i)) (sin1 i)))
      (fMul (some matrix.m22) (c23 i))
  let theta5_i := fAtan2 (fSqrt (fSub (some 1) (fMul (m 0) (m 0)))) (m 0)
  let theta5_ii := fAtan2 (fSqrt (fSub (some 1) (fMul (m 1) (m 1)))) (m 1)
  let theta5_iii := fAtan2 (fSqrt (fSub (some 1) (fMul (m 2) (m 2)))) (m 2)
  let theta5_iv := fAtan2 (fSqrt (fSub (some 1) (fMul (m 3) (m 3)))) (m 3)
  let theta5_v := fNeg theta5_i
  let theta5_vi := fNeg theta5_ii
  let theta5_vii := fNeg theta5_iii
  let theta5_viii := fNeg theta5_iv
  let zero_threshold : ℝ := 1e-6
  let theta4_i := if fAbsLt theta5_i zero_threshold then some 0 else
    fAtan2 (fSub (fMul (some matrix.m12) (cos1 0))
        (fMul (some matrix.m02) (sin1 0)))
      (fSub (fAdd (fMul (fMul (some matrix.m02) (c23 0)) (cos1 0))
          (fMul (fMul (some matrix.m12) (c23 0)) (sin1 0)))
        (fMul (some matrix.m22) (s23 0)))
  let theta6_i := if fAbsLt theta5_i zero_threshold then
    gimbalTheta6 matrix theta1_i
  else
    fAtan2 (fAdd (fAdd (fMul (fMul (some matrix.m01) (s23 0)) (cos1 0))
          (fMul (fMul (some matrix.m11) (s23 0)) (sin1 0)))
        (fMul (some matrix.m21) (c23 0)))
      (fSub (fSub (fMul (fMul (some (-matrix.m00)) (s23 0)) (cos1 0))
          (fMul (fMul (some matrix.m10) (s23 0)) (sin1 0)))
        (fMul (some matrix.m20) (c23 0)))
  let theta4_ii := if fAbsLt theta5_ii zero_threshold then some 0 else
    fAtan2 (fSub (fMul (some matrix.m12) (cos1 1))
        (fMul (some matrix.m02) (sin1 1)))
      (fSub (fAdd (fMul (fMul (some matrix.m02) (c23 1)) (cos1 1))
          (fMul (fMul (some matrix.m12) (c23 1)) (sin1 1)))
        (fMul (some matrix.m22) (s23 1)))
  let theta6_ii := if fAbsLt theta5_ii zero_threshold then
    gimbalTheta6 matrix theta1_i
  else
    fAtan2 (fAdd (fAdd (fMul (fMul (some matrix.m01) (s23 1)) (cos1 1))
          (fMul (fMul (some matrix.m11) (s23 1)) (sin1 1)))
        (fMul (some matrix.m21) (c23 1)))
      (fSub (fSub (fMul (fMul (some (-matrix.m00)) (s23 1)) (cos1 1))
          (fMul (fMul (some matrix.m10) (s23 1)) (sin1 1)))
        (fMul (some matrix.m20) (c23 1)))
  let theta4_iii := if fAbsLt theta5_iii zero_threshold then some 0 else
    fAtan2 (fSub (fMul (some matrix.m12) (cos1 2))
        (fMul (some matrix.m02) (sin1 2)))
      (fSub (fAdd (fMul (fMul (some matrix.m02) (c23 2)) (cos1 2))
          (fMul (fMul (some matrix.m12) (c23 2)) (sin1 2)))
        (fMul (some matrix.m22) (s23 2)))
  let theta6_iii := if fAbsLt theta5_iii zero_threshold then
    gimbalTheta6 matrix theta1_ii
  else
    fAtan2 (fAdd (fAdd (fMul (fMul (some matrix.m01) (s23 2)) (cos1 2))
          (fMul (fMul (some matrix.m11) (s23 2)) (sin1 2)))
        (fMul (some matrix.m21) (c23 2)))
      (fSub (fSub (fMul (fMul (some (-matrix.m00)) (s23 2)) (cos1 2))
          (fMul (fMul (some matrix.m10) (s23 2)) (sin1 2)))
        (fMul (some matrix.m20) (c23 2)))
  let theta4_iv := if fAbsLt theta5_iv zero_threshold then some 0 else
    fAtan2 (fSub (fMul (some matrix.m12) (cos1 3))
        (fMul (some matrix.m02) (sin1 3)))
      (fSub (fAdd (fMul (fMul (some matrix.m02) (c23 3)) (cos1 3))
          (fMul (fMul (some matrix.m12) (c23 3)) (sin1 3)))
        (fMul (some matrix.m22) (s23 3)))
  let theta6_iv := if fAbsLt theta5_iv zero_threshold then
    gimbalTheta6 matrix theta1_ii
  else
    fAtan2 (fAdd (fAdd (fMul (fMul (some matrix.m01) (s23 3)) (cos1 3))
          (fMul (fMul (some matrix.m11) (s23 3)) (sin1 3)))
        (fMul (some matrix.m21) (c23 3)))
      (fSub (fSub (fMul (fMul (some (-matrix.m00)) (s23 3)) (cos1 3))
          (fMul (fMul (some matrix.m10) (s23 3)) (sin1 3)))
        (fMul (some matrix.m20) (c23 3)))
  let theta4_v := fAdd theta4_i (some Real.pi)
  let theta4_vi := fAdd theta4_ii (some Real.pi)
  let theta4_vii := fAdd theta4_iii (some Real.pi)
  let theta4_viii := fAdd theta4_iv (some Real.pi)
  let theta6_v := fSub theta6_i (some Real.pi)
  let theta6_vi := fSub theta6_ii (some Real.pi)
  let theta6_vii := fSub theta6_iii (some Real.pi)
  let theta6_viii := fSub theta6_iv (some Real.pi)
  let theta : List RawJoints :=
    [⟨theta1_i, theta2_i, theta3_i, theta4_i, theta5_i, theta6_i⟩,
     ⟨theta1_i, theta2_ii, theta3_ii, theta4_ii, theta5_ii, theta6_ii⟩,
     ⟨theta1_ii, theta2_iii, theta3_iii, theta4_iii, theta5_iii, theta6_iii⟩,
     ⟨theta1_ii, theta2_iv, theta3_iv, theta4_iv, theta5_iv, theta6_iv⟩,
     ⟨theta1_i, theta2_i, theta3_i, theta4_v, theta5_v, theta6_v⟩,
     ⟨theta1_i, theta2_ii, theta3_ii, theta4_vi, theta5_vi, theta6_vi⟩,
     ⟨theta1_ii, theta2_iii, theta3_iii, theta4_vii, theta5_vii, theta6_vii⟩,
     ⟨theta1_ii, theta2_iv, theta3_iv, theta4_viii, theta5_viii,
       theta6_viii⟩]
  theta.map (fun t =>
    ⟨fMul (fAdd t.r0 (some params.offsets.j0))
       (some params.sign_corrections.j0),
     fMul (fAdd t.r1 (some params.offsets.j1))
       (some params.sign_corrections.j1),
     fMul (fAdd t.r2 (some params.offsets.j2))
       (some params.sign_corrections.j2),
     fMul (fAdd t.r3 (some params.offsets.j3))
       (some params.sign_corrections.j3),
     fMul (fAdd t.r4 (some params.offsets.j4))
       (some params.sign_corrections.j4),
     fMul (fAdd t.r5 (some params.offsets.j5))
       (some params.sign_corrections.j5)⟩)

/-- The `is_finite` validity check of the normalization loop (lines
286–299): a candidate survives only if all six of its angles are finite,
in which case they are extracted. -/
def finiteJoints : RawJoints → Option Joints
  | ⟨some a0, some a1, some a2, some a3, some a4, some a5⟩ =>
      some ⟨a0, a1, a2, a3, a4, a5⟩
  | _ => none

/-- The per-candidate normalization of `inverse` (lines 286–300): every
(finite) angle is wrapped by the two `±2π` loops. -/
def normalizeJoints (s : Joints) : Joints :=
  ⟨wrapAngle s.j0, wrapAngle s.j1, wrapAngle s.j2, wrapAngle s.j3,
   wrapAngle s.j4, wrapAngle s.j5⟩

open scoped Classical in
/-- `inverse(pose) -> Solutions` (lines 280–313): discard every candidate
containing a non-finite angle, wrap each surviving angle, and keep the
candidates whose forward round trip reproduces `pose` within the
tolerances. -/
def inverse (params : Parameters) (pose : Pose) : List Joints :=
  (((solutionCandidates params pose).filterMap finiteJoints).map
      normalizeJoints).filter
    (fun s => decide (comparePoses pose (forward params s)
      DISTANCE_TOLERANCE ANGULAR_TOLERANCE))

/-! ## Continuation resolver (`inverse_continuing`, lines 317–394) -/

/-- `SINGULARITY_SHIFT = DISTANCE_TOLERANCE / 8` (line 318). -/
def SINGULARITY_SHIFT : ℝ := DISTANCE_TOLERANCE / 8

/-- The four probe offsets (lines 319–321): none, then `SINGULARITY_SHIFT`
along X, Y, Z. -/
def SINGULARITY_SHIFTS : List Vec3 :=
  [⟨0, 0, 0⟩, ⟨SINGULARITY_SHIFT, 0, 0⟩, ⟨0, SINGULARITY_SHIFT, 0⟩,
   ⟨0, 0, SINGULARITY_SHIFT⟩]

/-- Translate a pose by a probe offset (lines 328–329). -/
def shiftPose (pose : Pose) (d : Vec3) : Pose :=
  { translation := ⟨pose.translation.x + d.x, pose.translation.y + d.y,
      pose.translation.z + d.z⟩,
    rotation := pose.rotation }

/-- Modelled from the spec: `utils::opw_kinematics::is_valid` (declared in
`utils`, which is not under `src/`) checks that the candidate is a valid
(non-NaN) solution.  The candidates it is applied to are members of
`inverse`'s output, which have already passed the `is_finite` filter and
are plain finite `Joints`, so the check always succeeds. -/
def isValid (_ : Joints) : Bool := true

/-- The singular-candidate adjustment of `inverse_continuing` (lines
341–370): pick the conserved quantity (`J4+J6` when `J5` is close to `0`,
`J4-J6` when `J5` is close to `±π`, in which case `J5`'s sign is first
normalized toward the previous value), wrap the delta between the previous
and current conserved quantity into `(-π, π]`-style range by the two `±2π`
loops, halve it, and move `J4`/`J6` to `previous ± j_d`. -/
def adjustSingularCandidate (previous now : Joints) : Joints :=
  if areAnglesClose now.j4 0 then
    let s := previous.j3 + previous.j5
    let s_n := now.j3 + now.j5
    let j_d := wrapAngle (s_n - s) / 2
    { now with j3 := previous.j3 + j_d, j5 := previous.j5 + j_d }
  else
    let s := previous.j3 - previous.j5
    let s_n := now.j3 - now.j5
    let now5 := normalizeNear now.j4 previous.j4
    let j_d := wrapAngle (s_n - s) / 2
    { now with j3 := previous.j3 + j_d, j4 := now5, j5 := previous.j5 + j_d }

/-- The `'shifts` loop of `inverse_continuing` (lines 327–384): probe each
shifted pose; the first non-empty inverse result is kept as the base
block; the first valid singular candidate of a probe is adjusted against
`previous` and, if its forward round trip still matches the target pose,
appended — which ends the whole loop. -/
def scanShifts (params : Parameters) (pose : Pose) (previous : Joints) :
    List Vec3 → List Joints → List Joints
  | [], sols => sols
  | d :: rest, sols =>
    let ik := inverse params (shiftPose pose d)
    let sols1 := if sols.isEmpty then sols ++ ik else sols
    match ik.find? (fun c => (kinematicSingularity c).isSome && isValid c)
      with
    | none => scanShifts params pose previous rest sols1
    | some cand =>
      let now := adjustSingularCandidate previous cand
      if comparePoses pose (forward params now) DISTANCE_TOLERANCE
          ANGULAR_TOLERANCE
      then sols1 ++ [now]
      else scanShifts params pose previous rest sols1

/-- The final per-joint renormalization of `inverse_continuing`
(lines 387–391): each angle is moved to the representative of its
`2π`-class nearest `previous`. -/
def normalizeJointsNear (s previous : Joints) : Joints :=
  ⟨normalizeNear s.j0 previous.j0, normalizeNear s.j1 previous.j1,
   normalizeNear s.j2 previous.j2, normalizeNear s.j3 previous.j3,
   normalizeNear s.j4 previous.j4, normalizeNear s.j5 previous.j5⟩

/-- `inverse_continuing(pose, previous) -> Solutions`: probe loop, then
renormalization toward `previous`, then the closeness sort. -/
def inverseContinuing (params : Parameters) (pose : Pose)
    (previous : Joints) : List Joints :=
  let collected := scanShifts params pose previous SINGULARITY_SHIFTS []
  let normalized := collected.map (fun s => normalizeJointsNear s previous)
  sortByCloseness normalized previous

/-! ## Rotation-matrix infrastructure -/

/-- Elementary rotation about Z. -/
def rotZ (θ : ℝ) : Mat3 :=
  ⟨Real.cos θ, -Real.sin θ, 0, Real.sin θ, Real.cos θ, 0, 0, 0, 1⟩

/-- Elementary rotation about Y. -/
def rotY (θ : ℝ) : Mat3 :=
  ⟨Real.cos θ, 0, Real.sin θ, 0, 1, 0, -Real.sin θ, 0, Real.cos θ⟩

/-- A special orthogonal (proper rotation) matrix. -/
def IsRotation (a : Mat3) : Prop :=
  matMul a (matTranspose a) = matId ∧ matDet a = 1

/-! ## Claim C4 — the conserved quantity of the singular adjustment -/

/-- Congruence of two angles modulo `2π`. -/
def AngleCong (a b : ℝ) : Prop := ∃ k : ℤ, a - b = 2 * Real.pi * k

def degParams : Parameters :=
  ⟨0, 0, 0, 0, 1, 1, 0, ⟨0, 0, 0, 0, 0, 0⟩, ⟨1, 1, 1, 1, 1, 1⟩⟩

def axisPose (x : ℝ) : Pose := ⟨⟨-x, 0, 0⟩, matId⟩

/-- A pose translation magnitude just beyond the reach boundary `2` of
`degParams`, by exactly one probe shift: shifting it by
`SINGULARITY_SHIFT` along X lands exactly on the boundary. -/
def xFar : ℝ := 2 + 1 / 8000000


theorem wrapHigh_le (a : ℝ) : wrapHigh a ≤ Real.pi := by
  induction a using wrapHigh.induct with
  | case1 a h ih => rw [wrapHigh, dif_pos h]; exact ih
  | case2 a h => rw [wrapHigh, dif_neg h]; linarith [not_lt.mp h]

theorem wrapLow_ge (a : ℝ) : -Real.pi ≤ wrapLow a := by
  induction a using wrapLow.induct with
  | case1 a h ih => rw [wrapLow, dif_pos h]; exact ih
  | case2 a h => rw [wrapLow, dif_neg h]; linarith [not_lt.mp h]

theorem wrapLow_le (a : ℝ) (ha : a ≤ Real.pi) : wrapLow a ≤ Real.pi := by
  induction a using wrapLow.induct with
  | case1 a h ih =>
    rw [wrapLow, dif_pos h]
    exact ih (by linarith [Real.pi_pos])
  | case2 a h => rw [wrapLow, dif_neg h]; exact ha

theorem wrapAngle_mem (a : ℝ) :
    -Real.pi ≤ wrapAngle a ∧ wrapAngle a ≤ Real.pi :=
  ⟨wrapLow_ge _, wrapLow_le _ (wrapHigh_le a)⟩

theorem wrapHigh_sub (a : ℝ) : ∃ k : ℤ, wrapHigh a = a + 2 * Real.pi * k := by
  induction a using wrapHigh.induct with
  | case1 a h ih =>
    rw [wrapHigh, dif_pos h]
    obtain ⟨k, hk⟩ := ih
    exact ⟨k - 1, by push_cast; linarith [hk]⟩
  | case2 a h => exact ⟨0, by rw [wrapHigh, dif_neg h]; push_cast; ring⟩

theorem wrapLow_sub (a : ℝ) : ∃ k : ℤ, wrapLow a = a + 2 * Real.pi * k := by
  induction a using wrapLow.induct with
  | case1 a h ih =>
    rw [wrapLow, dif_pos h]
    obtain ⟨k, hk⟩ := ih
    exact ⟨k + 1, by push_cast; linarith [hk]⟩
  | case2 a h => exact ⟨0, by rw [wrapLow, dif_neg h]; push_cast; ring⟩

theorem wrapAngle_sub (a : ℝ) : ∃ k : ℤ, wrapAngle a = a + 2 * Real.pi * k := by
  obtain ⟨k₁, h₁⟩ := wrapHigh_sub a
  obtain ⟨k₂, h₂⟩ := wrapLow_sub (wrapHigh a)
  exact ⟨k₁ + k₂, by unfold wrapAngle; rw [h₂, h₁]; push_cast; ring⟩

/-- An angle already in `[-π, π]` is left unchanged by both loops. -/
theorem wrapAngle_eq_self (a : ℝ) (h₁ : -Real.pi ≤ a) (h₂ : a ≤ Real.pi) :
    wrapAngle a = a := by
  unfold wrapAngle
  rw [wrapHigh, dif_neg (by linarith), wrapLow, dif_neg (by linarith)]

theorem matMul_assoc (a b c : Mat3) :
    matMul (matMul a b) c = matMul a (matMul b c) := by
  ext <;> · simp only [matMul]; ring

theorem matMul_matId (a : Mat3) : matMul a matId = a := by
  ext <;> simp [matMul, matId]

theorem matTranspose_matMul (a b : Mat3) :
    matTranspose (matMul a b) = matMul (matTranspose b) (matTranspose a) := by
  ext <;> · simp only [matMul, matTranspose]; ring

theorem matDet_matMul (a b : Mat3) :
    matDet (matMul a b) = matDet a * matDet b := by
  simp only [matMul, matDet]
  ring

theorem isRotation_matMul {a b : Mat3} (ha : IsRotation a)
    (hb : IsRotation b) : IsRotation (matMul a b) := by
  refine ⟨?_, ?_⟩
  · rw [matTranspose_matMul, matMul_assoc, ← matMul_assoc b,
      hb.1]
    have : matMul matId (matTranspose a) = matTranspose a := by
      ext <;> simp [matMul, matId, matTranspose]
    rw [this, ha.1]
  · rw [matDet_matMul, ha.2, hb.2, one_mul]

theorem rotZ_isRotation (θ : ℝ) : IsRotation (rotZ θ) := by
  constructor
  · ext <;> · simp only [rotZ, matMul, matTranspose, matId]
              first
              | ring1
              | linear_combination Real.sin_sq_add_cos_sq θ
  · simp only [rotZ, matDet]
    linear_combination Real.sin_sq_add_cos_sq θ

theorem rotY_isRotation (θ : ℝ) : IsRotation (rotY θ) := by
  constructor
  · ext <;> · simp only [rotY, matMul, matTranspose, matId]
              first
              | ring1
              | linear_combination Real.sin_sq_add_cos_sq θ
  · simp only [rotY, matDet]
    linear_combination Real.sin_sq_add_cos_sq θ

/-- The source's closed-form `r_0c` is the composition `Rz(q1)·Ry(q2+q3)`. -/
theorem r0cMat_decomp (q1 q2 q3 : ℝ) :
    r0cMat q1 q2 q3 = matMul (rotZ q1) (rotY (q2 + q3)) := by
  ext <;> · simp only [r0cMat, rotZ, rotY, matMul, Real.cos_add, Real.sin_add]
            ring

/-- The source's closed-form `r_ce` is the composition `Rz(q4)·Ry(q5)·Rz(q6)`. -/
theorem rceMat_decomp (q4 q5 q6 : ℝ) :
    rceMat q4 q5 q6 = matMul (rotZ q4) (matMul (rotY q5) (rotZ q6)) := by
  ext <;> · simp only [rceMat, rotZ, rotY, matMul]
            ring

theorem r0cMat_isRotation (q1 q2 q3 : ℝ) : IsRotation (r0cMat q1 q2 q3) := by
  rw [r0cMat_decomp]
  exact isRotation_matMul (rotZ_isRotation q1) (rotY_isRotation (q2 + q3))

theorem rceMat_isRotation (q4 q5 q6 : ℝ) : IsRotation (rceMat q4 q5 q6) := by
  rw [rceMat_decomp]
  exact isRotation_matMul (rotZ_isRotation q4)
    (isRotation_matMul (rotY_isRotation q5) (rotZ_isRotation q6))

/-- The rotation returned by `forward` is the product `r_0c · r_ce`. -/
theorem forward_rotation (p : Parameters) (joints : Joints) :
    (forward p joints).rotation =
      matMul
        (r0cMat (decodeJoint joints.j0 p.offsets.j0 p.sign_corrections.j0)
          (decodeJoint joints.j1 p.offsets.j1 p.sign_corrections.j1)
          (decodeJoint joints.j2 p.offsets.j2 p.sign_corrections.j2))
        (rceMat (decodeJoint joints.j3 p.offsets.j3 p.sign_corrections.j3)
          (decodeJoint joints.j4 p.offsets.j4 p.sign_corrections.j4)
          (decodeJoint joints.j5 p.offsets.j5 p.sign_corrections.j5)) := rfl

/-! ## Claim C9 — totality and well-formedness of `forward` -/

/-- C9: `forward` is a total function of its inputs (it is defined for
every joint vector and parameter record, with no failure branch — over
`ℝ` every produced value is finite), and the rotation it returns is a
well-defined proper rotation: orthogonal with determinant `1`. -/
theorem forward_total_isRotation (p : Parameters) (joints : Joints) :
    IsRotation (forward p joints).rotation := by
  rw [forward_rotation]
  exact isRotation_matMul (r0cMat_isRotation _ _ _) (rceMat_isRotation _ _ _)

/-! ## Claim C7 — the inverse's offset/sign application inverts the
forward decode -/

/-- C7: for every angle, offset, and sign correction in `{+1, -1}`,
decoding (as `forward` does, `q = joint * sign - offset`) the encoded
joint (as `inverse` does, `joint = (theta + offset) * sign`) returns the
original angle. -/
theorem decodeJoint_encodeJoint (theta offset sign : ℝ)
    (hs : sign = 1 ∨ sign = -1) :
    decodeJoint (encodeJoint theta offset sign) offset sign = theta := by
  rcases hs with h | h <;> · subst h; unfold decodeJoint encodeJoint; ring

/-- Witness for C7 at `theta = 1`, `offset = 2`, `sign = -1`. -/
theorem decodeJoint_encodeJoint_witness :
    ((-1 : ℝ) = 1 ∨ (-1 : ℝ) = -1) ∧
      decodeJoint (encodeJoint 1 2 (-1)) 2 (-1) = 1 :=
  ⟨Or.inr rfl, decodeJoint_encodeJoint 1 2 (-1) (Or.inr rfl)⟩

/-! ## Claim C8 — at most 8 returned solutions -/

theorem solutionCandidates_length (params : Parameters) (pose : Pose) :
    (solutionCandidates params pose).length = 8 := by
  rw [solutionCandidates]
  simp only [List.length_map, List.length_cons, List.length_nil]

/-- C8: for every parameter record and pose, the `Solutions` collection
returned by `inverse` contains at most 8 joint vectors. -/
theorem inverse_length_le_eight (params : Parameters) (pose : Pose) :
    (inverse params pose).length ≤ 8 := by
  calc (inverse params pose).length
      ≤ (((solutionCandidates params pose).filterMap finiteJoints).map
          normalizeJoints).length :=
        List.length_filter_le _ _
    _ ≤ (solutionCandidates params pose).length := by
        rw [List.length_map]
        exact List.length_filterMap_le _ _
    _ = 8 := solutionCandidates_length params pose

/-! ## Claim C1 — verification soundness of `inverse` -/

/-- C1: every joint vector contained in the `Solutions` returned by
`inverse pose`, passed through `forward`, yields a pose whose translation
is within `DISTANCE_TOLERANCE` (= 1e-6, i.e. 0.001 mm) and whose rotation
is within `ANGULAR_TOLERANCE` (= 1e-6 rad) of the input pose, as measured
by the pose comparator `compare_poses`. -/
theorem inverse_sound (params : Parameters) (pose : Pose) :
    (inverse params pose).Forall
      (fun j => comparePoses pose (forward params j)
        DISTANCE_TOLERANCE ANGULAR_TOLERANCE) := by
  rw [List.forall_iff_forall_mem]
  intro j hj
  have := (List.mem_filter.mp hj).2
  exact of_decide_eq_true this

/-! ## Claim C6 — sorting law of `inverse_continuing` -/

/-- C6: the sequence returned by `inverse_continuing` is non-decreasing in
total per-joint angular distance (`calculate_distance`) to
`previous_joints`. -/
theorem inverseContinuing_sorted (params : Parameters) (pose : Pose)
    (previous : Joints) :
    List.Sorted
      (fun a b => calculateDistance a previous ≤ calculateDistance b previous)
      (inverseContinuing params pose previous) := by
  have ht : IsTotal Joints
      (fun a b =>
        calculateDistance a previous ≤ calculateDistance b previous) :=
    ⟨fun a b => le_total _ _⟩
  have htr : IsTrans Joints
      (fun a b =>
        calculateDistance a previous ≤ calculateDistance b previous) :=
    ⟨fun a b c => le_trans⟩
  exact List.sorted_insertionSort _ _

/-! ## Claim C3 — singularity classification -/

theorem singularity_thr_eq : SINGULARITY_ANGLE_THR = Real.pi / 18000 := by
  unfold SINGULARITY_ANGLE_THR
  ring

/-- `rem_euclid` with a positive modulus lands in `[0, m)`. -/
theorem remEuclid_mem (x m : ℝ) (hm : 0 < m) :
    0 ≤ remEuclid x m ∧ remEuclid x m < m := by
  unfold remEuclid
  constructor
  · have h1 : (⌊x / m⌋ : ℝ) ≤ x / m := Int.floor_le _
    have h2 : m * (⌊x / m⌋ : ℝ) ≤ m * (x / m) :=
      mul_le_mul_of_nonneg_left h1 hm.le
    have h3 : m * (x / m) = x := by field_simp
    linarith
  · have h1 : x / m - 1 < (⌊x / m⌋ : ℝ) := Int.sub_one_lt_floor _
    have h2 : m * (x / m - 1) < m * (⌊x / m⌋ : ℝ) :=
      (mul_lt_mul_left hm).mpr h1
    have h3 : m * (x / m) = x := by field_simp
    nlinarith

/-- C3 counterexample: joint 5 = `-π/36000` is within the singularity
threshold of the integer multiple `0·π`, yet `kinematic_singularity`
returns nothing, because the value is first reduced into `[0, 2π)`
(landing just below `2π`) and only then compared against `0` and `π`. -/
theorem kinematicSingularity_smallNeg_counterexample :
    |(Joints.mk 0 0.8 0 0 (-Real.pi / 36000) 0).j4 - 0 * Real.pi|
        < SINGULARITY_ANGLE_THR ∧
      kinematicSingularity (Joints.mk 0 0.8 0 0 (-Real.pi / 36000) 0)
        = none := by
  have hpi := Real.pi_pos
  constructor
  · simp only [singularity_thr_eq, zero_mul, sub_zero]
    rw [abs_of_nonpos (by linarith)]
    linarith
  · have hfloor : ⌊(-Real.pi / 36000) / (2 * Real.pi)⌋ = -1 := by
      have hq : (-Real.pi / 36000) / (2 * Real.pi) = -(1 / 72000) := by
        field_simp
        ring
      rw [hq]
      rw [Int.floor_eq_iff]
      norm_num
    have hrem : remEuclid (-Real.pi / 36000) (2 * Real.pi)
        = (71999 / 36000) * Real.pi := by
      unfold remEuclid
      rw [hfloor]
      push_cast
      ring
    unfold kinematicSingularity
    rw [if_neg]
    unfold isCloseToMultipleOfPi
    simp only [hrem, singularity_thr_eq]
    push_neg
    constructor
    · nlinarith
    · rw [abs_of_nonpos (by nlinarith)]
      nlinarith

/-- C3 amended: `kinematic_singularity` returns the wrist singularity iff
joint 5 *after* reduction modulo `2π` into `[0, 2π)` is within the
threshold of `0` or of `π`; the reduction happens before the distance
check, so values slightly below a positive multiple of `2π` (such as a
small negative joint-5 angle) reduce to just under `2π` and are *not*
reported singular.  The reduction really lands in `[0, 2π)`. -/
theorem kinematicSingularity_iff (joints : Joints) :
    (0 ≤ remEuclid joints.j4 (2 * Real.pi) ∧
        remEuclid joints.j4 (2 * Real.pi) < 2 * Real.pi) ∧
      (kinematicSingularity joints = some Singularity.A ↔
        |remEuclid joints.j4 (2 * Real.pi)| < SINGULARITY_ANGLE_THR ∨
          |Real.pi - remEuclid joints.j4 (2 * Real.pi)|
            < SINGULARITY_ANGLE_THR) := by
  have hpi := Real.pi_pos
  have hmem := remEuclid_mem joints.j4 (2 * Real.pi) (by linarith)
  refine ⟨hmem, ?_⟩
  unfold kinematicSingularity isCloseToMultipleOfPi
  rw [abs_of_nonneg hmem.1]
  constructor
  · intro h
    by_contra hc
    rw [if_neg] at h
    · exact Option.noConfusion h
    · exact hc
  · intro h
    rw [if_pos h]

/-! ## Claim C5 — normalization range of `inverse` (amended) -/

/-- C5 amended: every joint angle of every candidate returned by
`inverse` lies in the *closed* interval `[-π, π]`.  (The wrapping loops
leave an angle equal to `-π` unchanged, so the half-open interval
`(-π, π]` of the claim is not achieved; see the counterexample.) -/
theorem inverse_angles_mem_Icc (params : Parameters) (pose : Pose) :
    (inverse params pose).Forall (fun j =>
      (-Real.pi ≤ j.j0 ∧ j.j0 ≤ Real.pi) ∧
      (-Real.pi ≤ j.j1 ∧ j.j1 ≤ Real.pi) ∧
      (-Real.pi ≤ j.j2 ∧ j.j2 ≤ Real.pi) ∧
      (-Real.pi ≤ j.j3 ∧ j.j3 ≤ Real.pi) ∧
      (-Real.pi ≤ j.j4 ∧ j.j4 ≤ Real.pi) ∧
      (-Real.pi ≤ j.j5 ∧ j.j5 ≤ Real.pi)) := by
  rw [List.forall_iff_forall_mem]
  intro j hj
  have hmem := List.mem_filter.mp hj
  obtain ⟨s, _, hs⟩ := List.mem_map.mp hmem.1
  subst hs
  exact ⟨wrapAngle_mem _, wrapAngle_mem _, wrapAngle_mem _, wrapAngle_mem _,
    wrapAngle_mem _, wrapAngle_mem _⟩

theorem not_angleCong_one_zero : ¬ AngleCong 1 0 := by
  rintro ⟨k, hk⟩
  have hpi := Real.pi_gt_three
  rcases lt_trichotomy k 0 with h | h | h
  · have hk0 : k ≤ -1 := by omega
    have hk1 : (k : ℝ) ≤ -1 := by exact_mod_cast hk0
    nlinarith
  · subst h
    norm_num at hk
  · have hk1 : (1 : ℝ) ≤ (k : ℝ) := by exact_mod_cast h
    nlinarith

theorem truncRem_zero : truncRem 0 (2 * Real.pi) = 0 := by
  simp [truncRem]

theorem truncRem_pi : truncRem Real.pi (2 * Real.pi) = Real.pi := by
  have hpi := Real.pi_pos
  unfold truncRem
  have hq : Real.pi / (2 * Real.pi) = 1 / 2 := by
    field_simp
    ring
  rw [hq, if_pos (by norm_num)]
  norm_num

theorem areAnglesClose_zero_zero : areAnglesClose 0 0 := by
  have hpi := Real.pi_pos
  unfold areAnglesClose
  simp only [sub_zero, abs_zero, truncRem_zero, singularity_thr_eq]
  rw [if_neg (by linarith)]
  linarith

theorem not_areAnglesClose_pi_zero : ¬ areAnglesClose Real.pi 0 := by
  have hpi := Real.pi_pos
  unfold areAnglesClose
  simp only [sub_zero, abs_of_pos hpi, truncRem_pi, singularity_thr_eq]
  rw [if_neg (lt_irrefl _)]
  linarith

/-- C4 counterexample: in the opposite-direction case (joint 5 near `±π`,
conserved quantity `J4 - J6`), with `previous = (0,0,0,1,π,0)` and an
unadjusted candidate `(0,0,0,0,π,0)`, the adjusted candidate has
`J4 - J6 = 1` while the unadjusted candidate has `J4 - J6 = 0`, and
`1 ≢ 0 (mod 2π)` — the conserved quantity of the adjusted candidate does
*not* equal that of the unadjusted candidate, so the pose is changed. -/
theorem adjustSingular_opposite_counterexample :
    ¬ areAnglesClose (Joints.mk 0 0 0 0 Real.pi 0).j4 0 ∧
      ¬ AngleCong
        ((adjustSingularCandidate (Joints.mk 0 0 0 1 Real.pi 0)
            (Joints.mk 0 0 0 0 Real.pi 0)).j3
          - (adjustSingularCandidate (Joints.mk 0 0 0 1 Real.pi 0)
              (Joints.mk 0 0 0 0 Real.pi 0)).j5)
        ((Joints.mk 0 0 0 0 Real.pi 0).j3
          - (Joints.mk 0 0 0 0 Real.pi 0).j5) := by
  have hpi := Real.pi_gt_three
  refine ⟨not_areAnglesClose_pi_zero, ?_⟩
  have hadj : (adjustSingularCandidate (Joints.mk 0 0 0 1 Real.pi 0)
        (Joints.mk 0 0 0 0 Real.pi 0)).j3
      - (adjustSingularCandidate (Joints.mk 0 0 0 1 Real.pi 0)
          (Joints.mk 0 0 0 0 Real.pi 0)).j5 = 1 := by
    unfold adjustSingularCandidate
    rw [if_neg not_areAnglesClose_pi_zero]
    simp only
    have harg : (0 : ℝ) - 0 - (1 - 0) = -1 := by norm_num
    rw [harg, wrapAngle_eq_self (-1) (by linarith) (by linarith)]
    ring
  rw [hadj]
  simpa using not_angleCong_one_zero

/-- C4 amended: the half-delta adjustment preserves the conserved quantity
of the *same-direction* case modulo `2π` (`J4+J6` when joint 5 is close to
`0`), but in the *opposite-direction* case (joint 5 near `±π`) the
adjusted difference `J4-J6` equals the difference of the `previous`
joints exactly — it coincides with the unadjusted candidate's difference
(and hence preserves the pose) only when the two already agree mod `2π`. -/
theorem adjustSingular_conserved (previous now : Joints) :
    (areAnglesClose now.j4 0 →
      AngleCong
        ((adjustSingularCandidate previous now).j3
          + (adjustSingularCandidate previous now).j5)
        (now.j3 + now.j5)) ∧
    (¬ areAnglesClose now.j4 0 →
      (adjustSingularCandidate previous now).j3
        - (adjustSingularCandidate previous now).j5
        = previous.j3 - previous.j5) := by
  constructor
  · intro h
    unfold adjustSingularCandidate
    rw [if_pos h]
    simp only
    obtain ⟨k, hk⟩ :=
      wrapAngle_sub (now.j3 + now.j5 - (previous.j3 + previous.j5))
    exact ⟨k, by rw [hk]; ring⟩
  · intro h
    unfold adjustSingularCandidate
    rw [if_neg h]
    simp only
    ring

/-- Witness for C4 (both cases at concrete inputs): the same-direction
case at `previous = now = 0` and the opposite-direction case at
`previous = (0,0,0,1,π,0)`, `now = (0,0,0,2,π,1)`. -/
theorem adjustSingular_conserved_witness :
    (areAnglesClose (Joints.mk 0 0 0 0 0 0).j4 0 ∧
      AngleCong
        ((adjustSingularCandidate (Joints.mk 0 0 0 0 0 0)
            (Joints.mk 0 0 0 0 0 0)).j3
          + (adjustSingularCandidate (Joints.mk 0 0 0 0 0 0)
              (Joints.mk 0 0 0 0 0 0)).j5)
        ((Joints.mk 0 0 0 0 0 0).j3 + (Joints.mk 0 0 0 0 0 0).j5)) ∧
    (¬ areAnglesClose (Joints.mk 0 0 0 2 Real.pi 1).j4 0 ∧
      (adjustSingularCandidate (Joints.mk 0 0 0 1 Real.pi 0)
          (Joints.mk 0 0 0 2 Real.pi 1)).j3
        - (adjustSingularCandidate (Joints.mk 0 0 0 1 Real.pi 0)
            (Joints.mk 0 0 0 2 Real.pi 1)).j5
        = (Joints.mk 0 0 0 1 Real.pi 0).j3
          - (Joints.mk 0 0 0 1 Real.pi 0).j5) := by
  constructor
  · exact ⟨areAnglesClose_zero_zero,
      (adjustSingular_conserved (Joints.mk 0 0 0 0 0 0)
        (Joints.mk 0 0 0 0 0 0)).1 areAnglesClose_zero_zero⟩
  · exact ⟨not_areAnglesClose_pi_zero,
      (adjustSingular_conserved (Joints.mk 0 0 0 1 Real.pi 0)
        (Joints.mk 0 0 0 2 Real.pi 1)).2 not_areAnglesClose_pi_zero⟩

theorem atan2_zero_of_neg {x : ℝ} (hx : x < 0) : atan2 0 x = Real.pi := by
  have h : (⟨x, 0⟩ : ℂ) = (x : ℂ) := rfl
  rw [atan2, h, Complex.arg_ofReal_of_neg hx]

theorem atan2_zero_of_nonneg {x : ℝ} (hx : 0 ≤ x) : atan2 0 x = 0 := by
  have h : (⟨x, 0⟩ : ℂ) = (x : ℂ) := rfl
  rw [atan2, h, Complex.arg_ofReal_of_nonneg hx]

theorem atan2_pos_zero {y : ℝ} (hy : 0 < y) : atan2 y 0 = Real.pi / 2 := by
  rw [atan2, Complex.arg_eq_pi_div_two_iff]
  exact ⟨rfl, hy⟩

theorem wrapAngle_two_pi_eq : wrapAngle (Real.pi + Real.pi) = 0 := by
  have hpi := Real.pi_pos
  unfold wrapAngle
  rw [wrapHigh, dif_pos (by linarith)]
  rw [show Real.pi + Real.pi - 2 * Real.pi = 0 by ring]
  rw [wrapHigh, dif_neg (by linarith), wrapLow, dif_neg (by linarith)]

theorem atan2_zero_one : atan2 0 1 = 0 := atan2_zero_of_nonneg (by norm_num)

set_option maxHeartbeats 1000000 in
theorem forward_deg_n1 :
    forward degParams ⟨Real.pi, Real.pi / 2, 0, Real.pi, Real.pi / 2, 0⟩
      = ⟨⟨-2, 0, 0⟩, matId⟩ := by
  unfold forward degParams decodeJoint r0cMat rceMat matMul matId
  norm_num [atan2_zero_one, Real.sin_pi, Real.cos_pi, Real.sin_pi_div_two,
    Real.cos_pi_div_two, Real.sqrt_one]

set_option maxHeartbeats 1000000 in
theorem forward_deg_n3 :
    forward degParams ⟨0, -(Real.pi / 2), 0, 0, Real.pi / 2, 0⟩
      = ⟨⟨-2, 0, 0⟩, matId⟩ := by
  unfold forward degParams decodeJoint r0cMat rceMat matMul matId
  norm_num [atan2_zero_one, Real.sin_pi, Real.cos_pi, Real.sin_pi_div_two,
    Real.cos_pi_div_two, Real.sqrt_one]

set_option maxHeartbeats 1000000 in
theorem forward_deg_n5 :
    forward degParams ⟨Real.pi, Real.pi / 2, 0, 0, -(Real.pi / 2), -Real.pi⟩
      = ⟨⟨-2, 0, 0⟩, matId⟩ := by
  unfold forward degParams decodeJoint r0cMat rceMat matMul matId
  norm_num [atan2_zero_one, Real.sin_pi, Real.cos_pi, Real.sin_pi_div_two,
    Real.cos_pi_div_two, Real.sqrt_one]

set_option maxHeartbeats 1000000 in
theorem forward_deg_n7 :
    forward degParams ⟨0, -(Real.pi / 2), 0, Real.pi, -(Real.pi / 2), -Real.pi⟩
      = ⟨⟨-2, 0, 0⟩, matId⟩ := by
  unfold forward degParams decodeJoint r0cMat rceMat matMul matId
  norm_num [atan2_zero_one, Real.sin_pi, Real.cos_pi, Real.sin_pi_div_two,
    Real.cos_pi_div_two, Real.sqrt_one]

theorem rotAngleBetween_id : rotAngleBetween matId matId = 0 := by
  unfold rotAngleBetween matTranspose matMul matTrace matId
  norm_num [Real.arccos_one]

theorem axisPose_dist (x : ℝ) (hx : 2 ≤ x) :
    |vNorm (vSub (axisPose x).translation ⟨-2, 0, 0⟩)| = x - 2 := by
  unfold axisPose vSub vNorm
  simp only
  rw [show (-x - -2) * (-x - -2) + (0 - 0) * (0 - 0) + (0 - 0) * (0 - 0)
      = (x - 2) * (x - 2) by ring]
  rw [Real.sqrt_mul_self (by linarith)]
  exact abs_of_nonneg (by linarith)

theorem shiftPose_zero (pose : Pose) : shiftPose pose ⟨0, 0, 0⟩ = pose := by
  unfold shiftPose
  ext <;> simp

theorem scanShifts_keeps (params : Parameters) (pose : Pose)
    (previous : Joints) (shifts : List Vec3) :
    ∀ sols : List Joints, sols ≠ [] →
      ∃ rest, scanShifts params pose previous shifts sols = sols ++ rest := by
  induction shifts with
  | nil =>
    intro sols _
    exact ⟨[], by rw [scanShifts]; simp⟩
  | cons d rest ih =>
    intro sols h
    rw [scanShifts]
    have hne : sols.isEmpty = false := by
      cases sols with
      | nil => exact absurd rfl h
      | cons a l => rfl
    simp only [hne, Bool.false_eq_true, if_false]
    split
    · exact ih sols h
    · split
      · exact ⟨_, rfl⟩
      · exact ih sols h

/-- C10 counterexample (to the numeric gloss): the probe shift is
`DISTANCE_TOLERANCE / 8 = 1.25e-7`, not `1.25e-10` as the claim states. -/
theorem singularityShift_value :
    SINGULARITY_SHIFT = 1.25e-7 ∧ SINGULARITY_SHIFT ≠ 1.25e-10 := by
  unfold SINGULARITY_SHIFT DISTANCE_TOLERANCE MM
  norm_num


set_option maxHeartbeats 1600000 in
/-- At the exact reach boundary (`x = 2`) every operation of the candidate
computation is in-domain, so all 8 raw candidates are finite. -/
theorem solutionCandidates_axisPose_two :
    solutionCandidates degParams (axisPose 2) =
      [⟨some Real.pi, some (Real.pi / 2), some 0, some Real.pi,
         some (Real.pi / 2), some 0⟩,
       ⟨some Real.pi, some (Real.pi / 2), some 0, some Real.pi,
         some (Real.pi / 2), some 0⟩,
       ⟨some 0, some (-(Real.pi / 2)), some 0, some 0,
         some (Real.pi / 2), some 0⟩,
       ⟨some 0, some (-(Real.pi / 2)), some 0, some 0,
         some (Real.pi / 2), some 0⟩,
       ⟨some Real.pi, some (Real.pi / 2), some 0, some (Real.pi + Real.pi),
         some (-(Real.pi / 2)), some (-Real.pi)⟩,
       ⟨some Real.pi, some (Real.pi / 2), some 0, some (Real.pi + Real.pi),
         some (-(Real.pi / 2)), some (-Real.pi)⟩,
       ⟨some 0, some (-(Real.pi / 2)), some 0, some Real.pi,
         some (-(Real.pi / 2)), some (-Real.pi)⟩,
       ⟨some 0, some (-(Real.pi / 2)), some 0, some Real.pi,
         some (-(Real.pi / 2)), some (-Real.pi)⟩] := by
  have hpi3 := Real.pi_gt_three
  have h4 : Real.sqrt 4 = 2 := by
    rw [show (4:ℝ) = 2 ^ 2 by norm_num, Real.sqrt_sq (by norm_num)]
  have hat2neg2 : atan2 0 (-2) = Real.pi := atan2_zero_of_neg (by norm_num)
  have hat202 : atan2 0 2 = 0 := atan2_zero_of_nonneg (by norm_num)
  have hat220 : atan2 2 0 = Real.pi / 2 := atan2_pos_zero (by norm_num)
  have hat210 : atan2 1 0 = Real.pi / 2 := atan2_pos_zero (by norm_num)
  have hat2neg1 : atan2 0 (-1) = Real.pi := atan2_zero_of_neg (by norm_num)
  have hnot52 : ¬ (|Real.pi / 2| < 1 / 1000000) := by
    rw [abs_of_pos (by linarith)]
    push_neg
    linarith
  unfold solutionCandidates degParams axisPose matId
  simp only [vSub, fAdd, fSub, fMul, fNeg, fDiv, fSqrt, fAcos, fAtan2,
    fSin, fCos, fAbsLt, gimbalTheta6]
  norm_num [h4, hat2neg2, hat202, hat220, hat210, hat2neg1, hnot52,
    atan2_zero_one, Real.arccos_one, Real.sin_pi, Real.cos_pi,
    Real.sin_pi_div_two, Real.cos_pi_div_two, Real.sqrt_one]

set_option maxHeartbeats 4000000 in
/-- Beyond the reach boundary (`x > 2`) the `acos` arguments exceed `1`,
so joints 2–6 of every raw candidate are non-finite (NaN in the source),
exactly as the `f64` program computes. -/
theorem solutionCandidates_axisPose_far (x : ℝ) (hx : 2 < x) :
    solutionCandidates degParams (axisPose x) =
      [⟨some Real.pi, none, none, none, none, none⟩,
       ⟨some Real.pi, none, none, none, none, none⟩,
       ⟨some 0, none, none, none, none, none⟩,
       ⟨some 0, none, none, none, none, none⟩,
       ⟨some Real.pi, none, none, none, none, none⟩,
       ⟨some Real.pi, none, none, none, none, none⟩,
       ⟨some 0, none, none, none, none, none⟩,
       ⟨some 0, none, none, none, none, none⟩] := by
  have hpi3 := Real.pi_gt_three
  have hx0 : (0:ℝ) < x := by linarith
  have hsq : Real.sqrt (x * x) = x := Real.sqrt_mul_self hx0.le
  have hat2negx : atan2 0 (-x) = Real.pi := atan2_zero_of_neg (by linarith)
  have hat20x : atan2 0 x = 0 := atan2_zero_of_nonneg hx0.le
  have hxx0 : ¬ (x * x < 0) := by nlinarith
  have hden : ¬ ((2:ℝ) * x = 0) := by nlinarith
  have hden1 : ¬ ((2:ℝ) * x * 1 = 0) := by nlinarith
  have hacos1 : ¬ (|x * x / (2 * x)| ≤ 1) := by
    rw [show x * x / (2 * x) = x / 2 by field_simp; ring]
    rw [abs_of_pos (by linarith)]
    push_neg
    linarith
  have hacos1a : ¬ (|x * x / (2 * x * 1)| ≤ 1) := by
    rw [mul_one]
    exact hacos1
  have hacos2 : ¬ (|(x * x - 1 - 1) / 2| ≤ 1) := by
    rw [abs_of_pos (by nlinarith)]
    push_neg
    nlinarith
  unfold solutionCandidates degParams axisPose matId
  simp only [vSub, fAdd, fSub, fMul, fNeg, fDiv, fSqrt, fAcos, fAtan2,
    fSin, fCos, fAbsLt, gimbalTheta6]
  norm_num [hsq, hat2negx, hat20x, hxx0, hden, hden1, hacos1, hacos1a,
    hacos2, Real.sqrt_one]

theorem compare_axisPose_two :
    comparePoses (axisPose 2) ⟨⟨-2, 0, 0⟩, matId⟩
      DISTANCE_TOLERANCE ANGULAR_TOLERANCE := by
  constructor
  · rw [axisPose_dist 2 le_rfl]
    unfold DISTANCE_TOLERANCE MM
    norm_num
  · rw [show (axisPose 2).rotation = matId from rfl, rotAngleBetween_id]
    unfold ANGULAR_TOLERANCE
    norm_num

set_option maxHeartbeats 1600000 in
/-- At the reach boundary all 8 candidates are finite, normalize to four
distinct joint vectors, and every one passes the forward verification
exactly. -/
theorem inverse_axisPose_two_eq :
    inverse degParams (axisPose 2) =
      [⟨Real.pi, Real.pi / 2, 0, Real.pi, Real.pi / 2, 0⟩,
       ⟨Real.pi, Real.pi / 2, 0, Real.pi, Real.pi / 2, 0⟩,
       ⟨0, -(Real.pi / 2), 0, 0, Real.pi / 2, 0⟩,
       ⟨0, -(Real.pi / 2), 0, 0, Real.pi / 2, 0⟩,
       ⟨Real.pi, Real.pi / 2, 0, 0, -(Real.pi / 2), -Real.pi⟩,
       ⟨Real.pi, Real.pi / 2, 0, 0, -(Real.pi / 2), -Real.pi⟩,
       ⟨0, -(Real.pi / 2), 0, Real.pi, -(Real.pi / 2), -Real.pi⟩,
       ⟨0, -(Real.pi / 2), 0, Real.pi, -(Real.pi / 2), -Real.pi⟩] := by
  have hpi := Real.pi_pos
  have w0 : wrapAngle 0 = 0 := wrapAngle_eq_self 0 (by linarith) (by linarith)
  have w1 : wrapAngle Real.pi = Real.pi :=
    wrapAngle_eq_self _ (by linarith) le_rfl
  have w2 : wrapAngle (Real.pi / 2) = Real.pi / 2 :=
    wrapAngle_eq_self _ (by linarith) (by linarith)
  have w3 : wrapAngle (-(Real.pi / 2)) = -(Real.pi / 2) :=
    wrapAngle_eq_self _ (by linarith) (by linarith)
  have w4 : wrapAngle (-Real.pi) = -Real.pi :=
    wrapAngle_eq_self _ le_rfl (by linarith)
  unfold inverse
  rw [solutionCandidates_axisPose_two]
  simp only [List.filterMap, finiteJoints, List.map, normalizeJoints,
    w0, w1, w2, w3, w4, wrapAngle_two_pi_eq]
  simp only [List.filter, forward_deg_n1, forward_deg_n3, forward_deg_n5,
    forward_deg_n7, decide_eq_true compare_axisPose_two]

set_option maxHeartbeats 1600000 in
/-- Beyond the reach boundary every candidate contains a non-finite angle
and is discarded by the `is_finite` check, so `inverse` is empty — as in
the `f64` program. -/
theorem inverse_axisPose_far_empty (x : ℝ) (hx : 2 < x) :
    inverse degParams (axisPose x) = [] := by
  unfold inverse
  rw [solutionCandidates_axisPose_far x hx]
  simp [List.filterMap, finiteJoints]

theorem scanShifts_base (params : Parameters) (pose : Pose)
    (previous : Joints) :
    ∀ (pre : List Vec3) (d : Vec3) (post : List Vec3),
      (∀ e ∈ pre, inverse params (shiftPose pose e) = []) →
      inverse params (shiftPose pose d) ≠ [] →
      ∃ rest, scanShifts params pose previous (pre ++ d :: post) []
        = inverse params (shiftPose pose d) ++ rest := by
  intro pre
  induction pre with
  | nil =>
    intro d post _ hd
    rw [List.nil_append, scanShifts]
    simp only [List.isEmpty_nil, if_pos, List.nil_append]
    split
    · exact scanShifts_keeps params pose previous _ _ hd
    · split
      · exact ⟨_, rfl⟩
      · exact scanShifts_keeps params pose previous _ _ hd
  | cons e pre ih =>
    intro d post hpre hd
    have he : inverse params (shiftPose pose e) = [] :=
      hpre e (by simp)
    rw [List.cons_append, scanShifts]
    simp only [he, List.isEmpty_nil, if_pos, List.append_nil,
      List.find?_nil]
    exact ih d post (fun e' he' => hpre e' (by simp [he'])) hd

/-- C10 amended (general form): whenever some probe pose `d` — the
unshifted pose or one of the three poses translated by
`SINGULARITY_SHIFT = DISTANCE_TOLERANCE/8 = 1.25e-7` along X, Y or Z —
is the first probe whose `inverse` call yields any solutions (all probes
before it yield none), `inverse_continuing` is non-empty and that probe's
entire solution set is included as the base block of the collected
solutions.  In particular, when `inverse` on the exact pose is empty, the
base block may come from a perturbed pose. -/
theorem inverseContinuing_perturbed_base (params : Parameters)
    (pose : Pose) (previous : Joints) (pre post : List Vec3) (d : Vec3)
    (hsplit : SINGULARITY_SHIFTS = pre ++ d :: post)
    (hpre : ∀ e ∈ pre, inverse params (shiftPose pose e) = [])
    (hd : inverse params (shiftPose pose d) ≠ []) :
    inverseContinuing params pose previous ≠ [] ∧
      ∃ rest, scanShifts params pose previous SINGULARITY_SHIFTS []
        = inverse params (shiftPose pose d) ++ rest := by
  have hcollect : ∃ rest,
      scanShifts params pose previous SINGULARITY_SHIFTS []
        = inverse params (shiftPose pose d) ++ rest := by
    rw [hsplit]
    exact scanShifts_base params pose previous pre d post hpre hd
  refine ⟨?_, hcollect⟩
  obtain ⟨rest, hr⟩ := hcollect
  unfold inverseContinuing
  intro hnil
  have hlen : (sortByCloseness
      ((scanShifts params pose previous SINGULARITY_SHIFTS []).map
        (fun s => normalizeJointsNear s previous)) previous).length = 0 := by
    rw [hnil]
    rfl
  rw [sortByCloseness] at hlen
  rw [(List.perm_insertionSort _ _).length_eq] at hlen
  rw [List.length_map, hr, List.length_append] at hlen
  have := List.length_pos.mpr hd
  omega

theorem shift_far_eq_boundary :
    shiftPose (axisPose xFar) ⟨SINGULARITY_SHIFT, 0, 0⟩ = axisPose 2 := by
  unfold shiftPose axisPose SINGULARITY_SHIFT DISTANCE_TOLERANCE MM xFar
  ext <;> norm_num

/-- Witness for C10: at `axisPose xFar` (just beyond the reach boundary)
the program's `inverse` is empty — every candidate is NaN-discarded —
while the X-shifted probe lands exactly on the boundary pose, whose
solutions are all finite and verified, so `inverse_continuing` is
non-empty. -/
theorem inverseContinuing_perturbed_base_witness :
    inverse degParams (axisPose xFar) = [] ∧
      inverseContinuing degParams (axisPose xFar)
        (Joints.mk 0 0 0 0 0 0) ≠ [] := by
  have hxFar : (2:ℝ) < xFar := by
    unfold xFar
    norm_num
  have h0 : inverse degParams (axisPose xFar) = [] :=
    inverse_axisPose_far_empty xFar hxFar
  have hd : inverse degParams
      (shiftPose (axisPose xFar) ⟨SINGULARITY_SHIFT, 0, 0⟩) ≠ [] := by
    rw [shift_far_eq_boundary, inverse_axisPose_two_eq]
    simp
  have hmain := inverseContinuing_perturbed_base degParams (axisPose xFar)
    (Joints.mk 0 0 0 0 0 0) [⟨0, 0, 0⟩]
    [⟨0, SINGULARITY_SHIFT, 0⟩, ⟨0, 0, SINGULARITY_SHIFT⟩]
    ⟨SINGULARITY_SHIFT, 0, 0⟩ rfl
    (by
      intro e he
      simp only [List.mem_singleton] at he
      subst he
      rw [shiftPose_zero]
      exact h0)
    hd
  exact ⟨h0, hmain.1⟩

/-- C5 counterexample: at the boundary pose `((-2, 0, 0), identity)` with
the degenerate parameter set, every operation of the candidate
computation is in-domain (all `acos`/`sqrt` arguments are exactly at or
inside their domain boundary), and `inverse` returns a solution whose
joint 6 is exactly `-π` — which is not in the claimed interval
`(-π, π]`. -/
theorem inverse_returns_neg_pi :
    (Joints.mk Real.pi (Real.pi / 2) 0 0 (-(Real.pi / 2)) (-Real.pi))
        ∈ inverse degParams (axisPose 2) ∧
      ¬ (-Real.pi <
        (Joints.mk Real.pi (Real.pi / 2) 0 0 (-(Real.pi / 2))
          (-Real.pi)).j5) := by
  constructor
  · rw [inverse_axisPose_two_eq]
    simp
  · simp
